import Mathlib

/-!
Verification of the napari evented-container subsystem and the QtRender
test-image panel, as described by the repository specification.

The repository excerpt ships the events package surface
(`napari/utils/events/__init__.py`) and the GUI module
`napari/_qt/experimental/render/qt_test_image.py`.  The implementations of
`EventedList`, `NestableEventedList`, `TypedMutableSequence`, `EventEmitter`
and `EmitterGroup` live outside the excerpt, so those components are modelled
from the specification text; the two shipped files are embedded directly.
-/

namespace Napari

/-- Error kinds of the evented-container subsystem (spec section 7). -/
inductive Err where
  | typeError
  | indexError
  deriving DecidableEq, Repr

/-- Lifecycle events emitted by an `EventedList` (spec section 4.4). -/
inductive Event (α : Type) where
  | inserting (index : Nat)
  | inserted (index : Nat) (value : α)
  | removing (index : Nat)
  | removed (index : Nat) (value : α)
  | moving (index : Nat) (newIndex : Nat)
  | moved (index : Nat) (newIndex : Nat) (value : α)
  | changed (index : Nat) (oldValue : α) (newValue : α)
  deriving DecidableEq, Repr

/-- Modelled from the spec: `TypedMutableSequence`
(`napari/utils/events/containers/_typed.py`, absent from the excerpt) —
an ordered sequence of elements all satisfying a declared type predicate
(spec sections 3 and 4.3). -/
structure TypedMutableSequence (α : Type) where
  pred : α → Bool
  data : List α

/-- Mutating operations on a sequence container (spec section 4.4 table). -/
inductive Op (α : Type) where
  | insert (index : Nat) (value : α)
  | remove (index : Nat)
  | move (index : Nat) (newIndex : Nat)
  | setitem (index : Nat) (value : α)
  deriving DecidableEq, Repr

/-- Modelled from the spec: one mutating call on a `TypedMutableSequence`
(spec section 4.3).  Validation (type predicate, index range) happens first;
on failure the sequence is returned unchanged together with the error. -/
def TypedMutableSequence.step (s : TypedMutableSequence α) :
    Op α → TypedMutableSequence α × Option Err
  | .insert i v =>
      if s.pred v = false then (s, some .typeError)
      else if s.data.length < i then (s, some .indexError)
      else (⟨s.pred, s.data.insertIdx i v⟩, none)
  | .remove i =>
      match s.data[i]? with
      | none => (s, some .indexError)
      | some _ => (⟨s.pred, s.data.eraseIdx i⟩, none)
  | .move i j =>
      match s.data[i]? with
      | none => (s, some .indexError)
      | some v =>
          if s.data.length ≤ j then (s, some .indexError)
          else (⟨s.pred, (s.data.eraseIdx i).insertIdx j v⟩, none)
  | .setitem i v =>
      if s.pred v = false then (s, some .typeError)
      else
        match s.data[i]? with
        | none => (s, some .indexError)
        | some _ => (⟨s.pred, s.data.set i v⟩, none)

/-- Modelled from the spec: `EventedList`
(`napari/utils/events/containers/_evented_list.py`, absent from the
excerpt) — a typed ordered sequence plus its emitter group; the event log of
a call records what the group dispatches (spec sections 3 and 4.4). -/
structure EventedList (α : Type) where
  pred : α → Bool
  data : List α

/-- Modelled from the spec: one mutating call on an `EventedList`
(spec section 4.4 state machine).  Validation errors are raised before any
mutation or event; otherwise the pre-event, the mutation and the post-event
happen in order and the call returns the new state and the emitted events. -/
def EventedList.step (l : EventedList α) :
    Op α → EventedList α × List (Event α) × Option Err
  | .insert i v =>
      if l.pred v = false then (l, [], some .typeError)
      else if l.data.length < i then (l, [], some .indexError)
      else (⟨l.pred, l.data.insertIdx i v⟩, [.inserting i, .inserted i v], none)
  | .remove i =>
      match l.data[i]? with
      | none => (l, [], some .indexError)
      | some v => (⟨l.pred, l.data.eraseIdx i⟩, [.removing i, .removed i v], none)
  | .move i j =>
      match l.data[i]? with
      | none => (l, [], some .indexError)
      | some v =>
          if l.data.length ≤ j then (l, [], some .indexError)
          else (⟨l.pred, (l.data.eraseIdx i).insertIdx j v⟩,
                [.moving i j, .moved i j v], none)
  | .setitem i v =>
      if l.pred v = false then (l, [], some .typeError)
      else
        match l.data[i]? with
        | none => (l, [], some .indexError)
        | some old => (⟨l.pred, l.data.set i v⟩, [.changed i old v], none)

/-- Replay a whole sequence of operations, concatenating the event logs.
A failed call leaves the container untouched and the replay continues. -/
def EventedList.applyAll (l : EventedList α) :
    List (Op α) → EventedList α × List (Event α)
  | [] => (l, [])
  | op :: ops =>
      let r := l.step op
      let rest := EventedList.applyAll r.1 ops
      (rest.1, r.2.1 ++ rest.2)

/-- A sequence of operations is valid for `l` when every call succeeds. -/
def EventedList.validSeq (l : EventedList α) : List (Op α) → Bool
  | [] => true
  | op :: ops => (l.step op).2.2 = none && EventedList.validSeq (l.step op).1 ops

/-- Reference semantics, written from the specification words (spec
section 8, property 1): replaying the operations against a plain ordered
sequence, with no events and no type checking. -/
def refStep (l : List α) : Op α → List α
  | .insert i v => l.insertIdx i v
  | .remove i => l.eraseIdx i
  | .move i j =>
      match l[i]? with
      | none => l
      | some v => (l.eraseIdx i).insertIdx j v
  | .setitem i v => l.set i v

/-- Reference replay of a whole operation sequence on a plain list. -/
def refApplyAll (l : List α) : List (Op α) → List α
  | [] => l
  | op :: ops => refApplyAll (refStep l op) ops

/-- A successful `EventedList` call mutates the data exactly as the
reference plain-sequence semantics does, and preserves the type predicate. -/
theorem EventedList.step_ok_data (l : EventedList α) (op : Op α)
    (h : (l.step op).2.2 = none) :
    (l.step op).1.data = refStep l.data op ∧ (l.step op).1.pred = l.pred := by
  cases op with
  | insert i v =>
      by_cases hp : l.pred v = false
      · simp [EventedList.step, hp] at h
      · by_cases hi : l.data.length < i
        · simp [EventedList.step, hp, hi] at h
        · simp [EventedList.step, refStep, hp, hi]
  | remove i =>
      cases hv : l.data[i]? with
      | none => simp [EventedList.step, hv] at h
      | some v => simp [EventedList.step, refStep, hv]
  | move i j =>
      cases hv : l.data[i]? with
      | none => simp [EventedList.step, hv] at h
      | some v =>
          by_cases hj : l.data.length ≤ j
          · simp [EventedList.step, hv, hj] at h
          · simp [EventedList.step, refStep, hv, hj]
  | setitem i v =>
      by_cases hp : l.pred v = false
      · simp [EventedList.step, hp] at h
      · cases hv : l.data[i]? with
        | none => simp [EventedList.step, hp, hv] at h
        | some old => simp [EventedList.step, refStep, hp, hv]

/-- A failed `EventedList` call leaves the container untouched and emits
no event (spec section 7 propagation policy). -/
theorem EventedList.step_err (l : EventedList α) (op : Op α) (e : Err)
    (h : (l.step op).2.2 = some e) :
    (l.step op).1 = l ∧ (l.step op).2.1 = [] := by
  cases op with
  | insert i v =>
      by_cases hp : l.pred v = false
      · simp [EventedList.step, hp]
      · by_cases hi : l.data.length < i
        · simp [EventedList.step, hp, hi]
        · simp [EventedList.step, hp, hi] at h
  | remove i =>
      cases hv : l.data[i]? with
      | none => simp [EventedList.step, hv]
      | some v => simp [EventedList.step, hv] at h
  | move i j =>
      cases hv : l.data[i]? with
      | none => simp [EventedList.step, hv]
      | some v =>
          by_cases hj : l.data.length ≤ j
          · simp [EventedList.step, hv, hj]
          · simp [EventedList.step, hv, hj] at h
  | setitem i v =>
      by_cases hp : l.pred v = false
      · simp [EventedList.step, hp]
      · cases hv : l.data[i]? with
        | none => simp [EventedList.step, hp, hv]
        | some old => simp [EventedList.step, hp, hv] at h

/-- A failed `TypedMutableSequence` call leaves the sequence untouched
(spec sections 4.3 and 7). -/
theorem TypedMutableSequence.typed_step_err (s : TypedMutableSequence α) (op : Op α)
    (e : Err) (h : (s.step op).2 = some e) : (s.step op).1 = s := by
  cases op with
  | insert i v =>
      by_cases hp : s.pred v = false
      · simp [TypedMutableSequence.step, hp]
      · by_cases hi : s.data.length < i
        · simp [TypedMutableSequence.step, hp, hi]
        · simp [TypedMutableSequence.step, hp, hi] at h
  | remove i =>
      cases hv : s.data[i]? with
      | none => simp [TypedMutableSequence.step, hv]
      | some v => simp [TypedMutableSequence.step, hv] at h
  | move i j =>
      cases hv : s.data[i]? with
      | none => simp [TypedMutableSequence.step, hv]
      | some v =>
          by_cases hj : s.data.length ≤ j
          · simp [TypedMutableSequence.step, hv, hj]
          · simp [TypedMutableSequence.step, hv, hj] at h
  | setitem i v =>
      by_cases hp : s.pred v = false
      · simp [TypedMutableSequence.step, hp]
      · cases hv : s.data[i]? with
        | none => simp [TypedMutableSequence.step, hp, hv]
        | some old => simp [TypedMutableSequence.step, hp, hv] at h

/-- C1: for every sequence of valid insert, remove, move and setitem calls
applied to an `EventedList`, the final observable state of the container
equals the state produced by replaying the same operations against a
reference plain ordered sequence. -/
theorem evented_list_refines_reference (l : EventedList α) (ops : List (Op α))
    (h : l.validSeq ops = true) :
    (l.applyAll ops).1.data = refApplyAll l.data ops := by
  induction ops generalizing l with
  | nil => rfl
  | cons op ops ih =>
      simp only [EventedList.validSeq, Bool.and_eq_true, decide_eq_true_eq] at h
      obtain ⟨h1, h2⟩ := h
      have hd := EventedList.step_ok_data l op h1
      simp only [EventedList.applyAll, refApplyAll]
      rw [ih _ h2, hd.1]

/-- A small concrete evented list of naturals below ten, for witnesses. -/
def sampleEL : EventedList Nat := ⟨fun n => Nat.blt n 10, [7]⟩

/-- A small concrete typed sequence of naturals below ten, for witnesses. -/
def sampleTS : TypedMutableSequence Nat := ⟨fun n => Nat.blt n 10, [7]⟩

/-- Witness for C1: a concrete valid sequence of all four operation kinds,
replayed on a concrete evented list and a plain list. -/
theorem evented_list_refines_reference_witness :
    (EventedList.validSeq sampleEL
      [Op.insert 0 1, Op.insert 1 2, Op.move 0 2, Op.setitem 0 5, Op.remove 1] = true) ∧
    (EventedList.applyAll sampleEL
      [Op.insert 0 1, Op.insert 1 2, Op.move 0 2, Op.setitem 0 5, Op.remove 1]).1.data =
      refApplyAll [7]
      [Op.insert 0 1, Op.insert 1 2, Op.move 0 2, Op.setitem 0 5, Op.remove 1] :=
  ⟨rfl, evented_list_refines_reference sampleEL
      [Op.insert 0 1, Op.insert 1 2, Op.move 0 2, Op.setitem 0 5, Op.remove 1]
      rfl⟩

/-- Values of the dynamic language, as far as the concrete scenarios need:
integers and strings. -/
inductive PyVal where
  | intV (n : Int)
  | strV (s : String)
  deriving DecidableEq, Repr

/-- The type predicate of an `EventedList` declared with element type int. -/
def isIntVal : PyVal → Bool
  | .intV _ => true
  | .strV _ => false

/-- An empty `EventedList` with element type int. -/
def emptyIntList : EventedList PyVal := ⟨isIntVal, []⟩

/-- C2: on an empty int-typed `EventedList`, `insert(0, 5)` emits exactly
`inserting(0)` then `inserted(0, 5)` and the contents become `[5]`; a
subsequent `insert(0, "x")` fails with the `TypeError`-kind error, emits
nothing, and leaves the contents `[5]`. -/
theorem evented_list_concrete_insert_scenario :
    (emptyIntList.step (.insert 0 (.intV 5))).2.1 =
      [Event.inserting 0, Event.inserted 0 (PyVal.intV 5)] ∧
    (emptyIntList.step (.insert 0 (.intV 5))).2.2 = none ∧
    (emptyIntList.step (.insert 0 (.intV 5))).1.data = [PyVal.intV 5] ∧
    (((emptyIntList.step (.insert 0 (.intV 5))).1.step
        (.insert 0 (.strV "x"))).2.2 = some Err.typeError) ∧
    (((emptyIntList.step (.insert 0 (.intV 5))).1.step
        (.insert 0 (.strV "x"))).2.1 = []) ∧
    (((emptyIntList.step (.insert 0 (.intV 5))).1.step
        (.insert 0 (.strV "x"))).1.data = [PyVal.intV 5]) :=
  ⟨rfl, rfl, rfl, rfl, rfl, rfl⟩

/-- C3: whenever a mutating operation on an `EventedList` or a
`TypedMutableSequence` fails with a `TypeError`-kind or `IndexError`-kind
error, no event is emitted and the container is unchanged, its contents and
length included. -/
theorem failed_mutation_changes_nothing (l : EventedList α)
    (s : TypedMutableSequence α) (op op2 : Op α) (e e2 : Err)
    (h : (l.step op).2.2 = some e) (h2 : (s.step op2).2 = some e2) :
    (l.step op).1 = l ∧ (l.step op).2.1 = [] ∧ (s.step op2).1 = s :=
  ⟨(EventedList.step_err l op e h).1, (EventedList.step_err l op e h).2,
    TypedMutableSequence.typed_step_err s op2 e2 h2⟩

/-- Witness for C3: a type-failing insert on an evented list and an
index-failing remove on a typed sequence. -/
theorem failed_mutation_changes_nothing_witness :
    ((sampleEL.step (Op.insert 0 99)).2.2 = some Err.typeError) ∧
    ((sampleTS.step (Op.remove 3)).2 = some Err.indexError) ∧
    ((sampleEL.step (Op.insert 0 99)).1 = sampleEL ∧
     (sampleEL.step (Op.insert 0 99)).2.1 = [] ∧
     (sampleTS.step (Op.remove 3)).1 = sampleTS) :=
  ⟨rfl, rfl,
    failed_mutation_changes_nothing sampleEL sampleTS
      (Op.insert 0 99) (Op.remove 3) Err.typeError Err.indexError rfl rfl⟩

/-- Modelled from the spec: `EventEmitter`
(`napari/utils/events/event.py`, absent from the excerpt) — an ordered set
of subscriber handles, invoked in connection order, plus a reference-counted
block flag (spec sections 3 and 4.1).  Subscribers are identified by
natural-number handles. -/
structure EventEmitter where
  callbacks : List Nat
  blocked : Nat
  deriving DecidableEq, Repr

/-- Registering a callback is idempotent and appends at the end, so the
invocation order is the connection order (spec section 4.1). -/
def EventEmitter.connect (em : EventEmitter) (c : Nat) : EventEmitter :=
  if c ∈ em.callbacks then em else ⟨em.callbacks ++ [c], em.blocked⟩

/-- Tolerant removal of a callback (spec section 4.1). -/
def EventEmitter.disconnect (em : EventEmitter) (c : Nat) : EventEmitter :=
  ⟨em.callbacks.filter (fun x => x != c), em.blocked⟩

/-- What a subscriber may do to the emitter from inside its callback. -/
inductive EmAction where
  | conn (c : Nat)
  | disconn (c : Nat)
  deriving DecidableEq, Repr

/-- Apply the connect/disconnect actions a callback performed. -/
def EventEmitter.runActs (em : EventEmitter) : List EmAction → EventEmitter
  | [] => em
  | .conn c :: rest => (em.connect c).runActs rest
  | .disconn c :: rest => (em.disconnect c).runActs rest

/-- Reentrant behaviour of the subscribers, as a finite table from
subscriber handle to the actions its callback performs when invoked. -/
def effOf (effList : List (Nat × List EmAction)) (c : Nat) : List EmAction :=
  match effList.find? (fun p => p.1 == c) with
  | none => []
  | some p => p.2

/-- Modelled from the spec: the dispatch loop of `emit` (spec sections 4.1
and 5).  The subscriber list is snapshotted at the start; each snapshot
entry still connected at its turn is invoked (recorded as a pair of handle
and event) and its reentrant actions are applied before the next entry. -/
def dispatchAux (effList : List (Nat × List EmAction)) (e : ε) :
    EventEmitter → List Nat → List (Nat × ε) × EventEmitter
  | em, [] => ([], em)
  | em, c :: rest =>
      if c ∈ em.callbacks then
        let r := dispatchAux effList e (em.runActs (effOf effList c)) rest
        ((c, e) :: r.1, r.2)
      else dispatchAux effList e em rest

/-- Modelled from the spec: `emit` synchronously invokes every currently
connected, non-blocked subscriber in registration order (spec section 4.1);
a blocked emitter drops the event. -/
def EventEmitter.emit (em : EventEmitter) (effList : List (Nat × List EmAction))
    (e : ε) : List (Nat × ε) × EventEmitter :=
  if em.blocked ≠ 0 then ([], em) else dispatchAux effList e em em.callbacks

/-- Successive emits, concatenating the invocation logs. -/
def EventEmitter.emitSeq (em : EventEmitter)
    (effList : List (Nat × List EmAction)) : List ε → List (Nat × ε) × EventEmitter
  | [] => ([], em)
  | e :: es =>
      let r := em.emit effList e
      let r2 := EventEmitter.emitSeq r.2 effList es
      (r.1 ++ r2.1, r2.2)

/-- Whether an action is a disconnect. -/
def EmAction.isDisconn : EmAction → Bool
  | .conn _ => false
  | .disconn _ => true

/-- No subscriber in the table disconnects anyone from inside its callback. -/
def noDisconnects (effList : List (Nat × List EmAction)) : Bool :=
  effList.all fun p => p.2.all fun a => !a.isDisconn

/-- Whether some subscriber in the table connects `s` from its callback. -/
def connectsTo (s : Nat) (effList : List (Nat × List EmAction)) : Bool :=
  effList.any fun p => p.2.any fun a => a == .conn s

/-- Connecting preserves membership of every already-connected handle. -/
theorem EventEmitter.mem_connect (em : EventEmitter) (c x : Nat)
    (h : x ∈ em.callbacks) : x ∈ (em.connect c).callbacks := by
  unfold EventEmitter.connect
  split
  · exact h
  · simp [h]

/-- Running disconnect-free actions preserves membership. -/
theorem EventEmitter.mem_runActs (em : EventEmitter) (acts : List EmAction)
    (hnd : ∀ a ∈ acts, a.isDisconn = false) (x : Nat)
    (h : x ∈ em.callbacks) : x ∈ (em.runActs acts).callbacks := by
  induction acts generalizing em with
  | nil => exact h
  | cons a rest ih =>
      cases a with
      | conn c =>
          exact ih (em.connect c) (fun b hb => hnd b (List.mem_cons_of_mem _ hb))
            (em.mem_connect c x h)
      | disconn c =>
          exact absurd (hnd _ (List.mem_cons_self _ _)) (by simp [EmAction.isDisconn])

/-- In a disconnect-free table, every entry is disconnect-free. -/
theorem effOf_noDisconn (effList : List (Nat × List EmAction))
    (hnd : noDisconnects effList = true) (c : Nat) :
    ∀ a ∈ effOf effList c, a.isDisconn = false := by
  intro a ha
  unfold effOf at ha
  split at ha
  · simp at ha
  · rename_i p hp
    have hpmem : p ∈ effList := List.mem_of_find?_eq_some hp
    have := (List.all_eq_true.mp hnd) p hpmem
    have := (List.all_eq_true.mp this) a ha
    simpa using this

/-- If the table never connects `s`, running any entry of it preserves
non-membership of `s`. -/
theorem EventEmitter.not_mem_runActs (em : EventEmitter) (acts : List EmAction)
    (hnc : ∀ a ∈ acts, a ≠ .conn s) (h : s ∉ em.callbacks) :
    s ∉ (em.runActs acts).callbacks := by
  induction acts generalizing em with
  | nil => exact h
  | cons a rest ih =>
      cases a with
      | conn c =>
          have hcs : c ≠ s := by
            intro hcs
            exact (hnc _ (List.mem_cons_self _ _)) (by rw [hcs])
          refine ih (em.connect c) (fun b hb => hnc b (List.mem_cons_of_mem _ hb)) ?_
          unfold EventEmitter.connect
          split
          · exact h
          · simp only [List.mem_append, List.mem_singleton]
            rintro (hm | he)
            · exact h hm
            · exact hcs he.symm
      | disconn c =>
          refine ih (em.disconnect c) (fun b hb => hnc b (List.mem_cons_of_mem _ hb)) ?_
          unfold EventEmitter.disconnect
          simp only [List.mem_filter]
          intro hmem
          exact h hmem.1

/-- A table that never connects `s` has no `conn s` in any entry. -/
theorem effOf_not_conn (effList : List (Nat × List EmAction))
    (hnc : connectsTo s effList = false) (c : Nat) :
    ∀ a ∈ effOf effList c, a ≠ EmAction.conn s := by
  intro a ha haeq
  unfold effOf at ha
  split at ha
  · simp at ha
  · rename_i p hp
    have hpmem : p ∈ effList := List.mem_of_find?_eq_some hp
    unfold connectsTo at hnc
    rw [List.any_eq_false] at hnc
    have h2 := hnc p hpmem
    rw [Bool.not_eq_true, List.any_eq_false] at h2
    exact absurd (by simp [haeq]) (h2 a ha)

/-- The dispatch loop invokes exactly the snapshot, in order, when the
snapshot stays connected (no reentrant disconnects). -/
theorem dispatchAux_all_invoked (effList : List (Nat × List EmAction))
    (hnd : noDisconnects effList = true) (e : ε) :
    ∀ (sn : List Nat) (em : EventEmitter), (∀ c ∈ sn, c ∈ em.callbacks) →
      (dispatchAux effList e em sn).1 = sn.map (fun c => (c, e)) := by
  intro sn
  induction sn with
  | nil => intro em _; rfl
  | cons c rest ih =>
      intro em hmem
      have hc : c ∈ em.callbacks := hmem c (List.mem_cons_self _ _)
      simp only [dispatchAux, if_pos hc, List.map_cons]
      rw [ih _ (fun d hd => EventEmitter.mem_runActs _ _
        (effOf_noDisconn effList hnd c) d (hmem d (List.mem_cons_of_mem _ hd)))]

/-- Once `s` is not connected, the rest of a dispatch never invokes `s`,
provided no callback reconnects it. -/
theorem dispatchAux_not_invoked (effList : List (Nat × List EmAction))
    (hnc : connectsTo s effList = false) (e : ε) :
    ∀ (sn : List Nat) (em : EventEmitter), s ∉ em.callbacks →
      ∀ x, (s, x) ∉ (dispatchAux effList e em sn).1 := by
  intro sn
  induction sn with
  | nil => intro em _ x hx; simp [dispatchAux] at hx
  | cons c rest ih =>
      intro em hs x
      by_cases hc : c ∈ em.callbacks
      · simp only [dispatchAux, if_pos hc, List.mem_cons]
        rintro (heq | hmem)
        · injection heq with h1 h2
          exact hs (by rw [h1]; exact hc)
        · exact ih (em.runActs (effOf effList c))
            (EventEmitter.not_mem_runActs _ _ (effOf_not_conn effList hnc c) hs)
            x hmem
      · simp only [dispatchAux, if_neg hc]
        exact ih em hs x

/-- With no reentrant actions at all, a dispatch invokes the whole snapshot
and leaves the emitter unchanged. -/
theorem dispatchAux_pure (e : ε) :
    ∀ (sn : List Nat) (em : EventEmitter), (∀ c ∈ sn, c ∈ em.callbacks) →
      dispatchAux ([] : List (Nat × List EmAction)) e em sn =
        (sn.map (fun c => (c, e)), em) := by
  intro sn
  induction sn with
  | nil => intro em _; rfl
  | cons c rest ih =>
      intro em hmem
      have hc : c ∈ em.callbacks := hmem c (List.mem_cons_self _ _)
      simp only [dispatchAux, if_pos hc]
      rw [show em.runActs (effOf [] c) = em from rfl,
        ih em (fun d hd => hmem d (List.mem_cons_of_mem _ hd))]
      simp

/-- C4: on an unblocked emitter, every subscriber connected at the start of
dispatch is invoked synchronously in connection order; a subscriber not yet
connected at the start (even one connected during dispatch) does not receive
the in-flight event; and across successive emits the subscribers observe the
events exactly in issue order, with no reordering or batching. -/
theorem emitter_dispatch_order (ε : Type) (em : EventEmitter)
    (effList : List (Nat × List EmAction)) (e : ε)
    (hb : em.blocked = 0) (hnd : noDisconnects effList = true) :
    (em.emit effList e).1 = em.callbacks.map (fun c => (c, e)) ∧
    (∀ d, d ∉ em.callbacks → ∀ x : ε, (d, x) ∉ (em.emit effList e).1) ∧
    (∀ es : List ε, (em.emitSeq ([] : List (Nat × List EmAction)) es).1 =
      es.flatMap (fun ev => em.callbacks.map (fun c => (c, ev)))) := by
  have hlog : (em.emit effList e).1 = em.callbacks.map (fun c => (c, e)) := by
    unfold EventEmitter.emit
    rw [if_neg (by simp [hb])]
    exact dispatchAux_all_invoked effList hnd e em.callbacks em (fun _ h => h)
  refine ⟨hlog, ?_, ?_⟩
  · intro d hd x hmem
    rw [hlog] at hmem
    obtain ⟨c, hc, hce⟩ := List.mem_map.mp hmem
    injection hce with h1 h2
    exact hd (by rw [← h1]; exact hc)
  · intro es
    induction es with
    | nil => rfl
    | cons ev rest ih =>
        simp only [EventEmitter.emitSeq, List.flatMap_cons]
        rw [show em.emit ([] : List (Nat × List EmAction)) ev =
            (em.callbacks.map (fun c => (c, ev)), em) from ?_]
        · rw [ih]
        · unfold EventEmitter.emit
          rw [if_neg (by simp [hb])]
          exact dispatchAux_pure ev em.callbacks em (fun _ h => h)

/-- Witness for C4: emitter with subscribers 1 and 2, where subscriber 1
connects subscriber 3 during dispatch; 3 does not see the in-flight event,
and two successive emits arrive in order. -/
theorem emitter_dispatch_order_witness :
    ((⟨[1, 2], 0⟩ : EventEmitter).blocked = 0) ∧
    (noDisconnects [(1, [EmAction.conn 3])] = true) ∧
    ((EventEmitter.emit ⟨[1, 2], 0⟩ [(1, [EmAction.conn 3])] (0 : Nat)).1 =
      List.map (fun c => (c, 0)) [1, 2]) ∧
    ((3, (0 : Nat)) ∉
      (EventEmitter.emit ⟨[1, 2], 0⟩ [(1, [EmAction.conn 3])] (0 : Nat)).1) ∧
    ((EventEmitter.emitSeq ⟨[1, 2], 0⟩ ([] : List (Nat × List EmAction))
        [(0 : Nat), 1]).1 =
      ([0, 1] : List Nat).flatMap (fun ev => List.map (fun c => (c, ev)) [1, 2])) := by
  have h := emitter_dispatch_order Nat ⟨[1, 2], 0⟩
    [(1, [EmAction.conn 3])] 0 rfl (by decide)
  exact ⟨rfl, by decide, h.1, h.2.1 3 (by decide) 0, h.2.2 [0, 1]⟩

/-- C5: after `disconnect s` the subscriber `s` is never invoked again
(provided nobody reconnects it), including when the disconnect happens in
the middle of a dispatch: from any point of a dispatch at which `s` is no
longer connected, the remainder never invokes `s`. -/
theorem emitter_disconnect_no_events (ε : Type) (em : EventEmitter) (s : Nat)
    (effList : List (Nat × List EmAction))
    (hnc : connectsTo s effList = false) :
    s ∉ (em.disconnect s).callbacks ∧
    (∀ (e : ε) (x : ε), (s, x) ∉ ((em.disconnect s).emit effList e).1) ∧
    (∀ (em2 : EventEmitter) (sn : List Nat) (e : ε), s ∉ em2.callbacks →
      ∀ x : ε, (s, x) ∉ (dispatchAux effList e em2 sn).1) := by
  have hnotmem : s ∉ (em.disconnect s).callbacks := by
    unfold EventEmitter.disconnect
    simp [List.mem_filter]
  refine ⟨hnotmem, ?_, ?_⟩
  · intro e x
    unfold EventEmitter.emit
    split
    · simp
    · exact dispatchAux_not_invoked effList hnc e _ _ hnotmem x
  · intro em2 sn e hs x
    exact dispatchAux_not_invoked effList hnc e sn em2 hs x

/-- Witness for C5: subscriber 5 is disconnected (also mid-dispatch by
subscriber 1) and receives nothing afterwards. -/
theorem emitter_disconnect_no_events_witness :
    (connectsTo 5 [(1, [EmAction.disconn 5])] = false) ∧
    (5 ∉ (EventEmitter.disconnect ⟨[1, 5, 2], 0⟩ 5).callbacks) ∧
    ((5, (0 : Nat)) ∉ ((EventEmitter.disconnect ⟨[1, 5, 2], 0⟩ 5).emit
        [(1, [EmAction.disconn 5])] (0 : Nat)).1) ∧
    ((5, (0 : Nat)) ∉ (dispatchAux [(1, [EmAction.disconn 5])] (0 : Nat)
        ⟨[1, 2], 0⟩ [5, 2]).1) := by
  have h := emitter_disconnect_no_events Nat ⟨[1, 5, 2], 0⟩ 5
    [(1, [EmAction.disconn 5])] (by decide)
  exact ⟨by decide, h.1, h.2.1 0 0, h.2.2 ⟨[1, 2], 0⟩ [5, 2] 0 (by decide) 0⟩

/-- Modelled from the spec: the recursive structure of a
`NestableEventedList` (`napari/utils/events/containers/_nested_list.py`,
absent from the excerpt) — each element is either a leaf value or another
group, and index addressing uses a path of integers (spec sections 3 and
4.5). -/
inductive NTree (α : Type) where
  | leaf (v : α)
  | group (children : List (NTree α))

mutual
/-- Decidable equality of nested trees. -/
def NTree.decEq [inst : DecidableEq α] : (a b : NTree α) → Decidable (a = b)
  | .leaf x, .leaf y =>
      match inst x y with
      | isTrue h => isTrue (by rw [h])
      | isFalse h => isFalse (by intro hh; injection hh; contradiction)
  | .leaf _, .group _ => isFalse (by intro h; exact NTree.noConfusion h)
  | .group _, .leaf _ => isFalse (by intro h; exact NTree.noConfusion h)
  | .group cs, .group ds =>
      match NTree.decEqList cs ds with
      | isTrue h => isTrue (by rw [h])
      | isFalse h => isFalse (by intro hh; injection hh; contradiction)
/-- Decidable equality of lists of nested trees. -/
def NTree.decEqList [DecidableEq α] : (as bs : List (NTree α)) → Decidable (as = bs)
  | [], [] => isTrue rfl
  | [], _ :: _ => isFalse (by intro h; exact List.noConfusion h)
  | _ :: _, [] => isFalse (by intro h; exact List.noConfusion h)
  | a :: as, b :: bs =>
      match NTree.decEq a b, NTree.decEqList as bs with
      | isTrue h1, isTrue h2 => isTrue (by rw [h1, h2])
      | isFalse h1, _ => isFalse (by intro hh; injection hh; contradiction)
      | _, isFalse h2 => isFalse (by intro hh; injection hh; contradiction)
end

instance [DecidableEq α] : DecidableEq (NTree α) := NTree.decEq

/-- Events of a `NestableEventedList`, carrying full index paths
(spec section 4.5). -/
inductive NEvent (α : Type) where
  | inserting (path : List Nat)
  | inserted (path : List Nat) (value : NTree α)
  | removing (path : List Nat)
  | removed (path : List Nat) (value : NTree α)
  | moving (src : List Nat) (dst : List Nat)
  | moved (src : List Nat) (dst : List Nat) (value : NTree α)
  deriving DecidableEq

/-- Modelled from the spec: path lookup in a nested list — `IndexError`-kind
when a segment is out of range, `TypeError`-kind when a non-terminal segment
addresses a leaf (spec section 4.5). -/
def getAt : NTree α → List Nat → Except Err (NTree α)
  | t, [] => .ok t
  | .leaf _, _ :: _ => .error .typeError
  | .group cs, i :: rest =>
      match cs[i]? with
      | none => .error .indexError
      | some c => getAt c rest

/-- Modelled from the spec: insertion at a path — the last path segment is
the insertion index inside the group addressed by the leading segments
(spec section 4.5). -/
def insertAt : NTree α → List Nat → NTree α → Except Err (NTree α)
  | _, [], _ => .error .indexError
  | .leaf _, _ :: _, _ => .error .typeError
  | .group cs, [i], v =>
      if i ≤ cs.length then .ok (.group (cs.insertIdx i v))
      else .error .indexError
  | .group cs, i :: j :: rest, v =>
      match cs[i]? with
      | none => .error .indexError
      | some c =>
          match insertAt c (j :: rest) v with
          | .error e => .error e
          | .ok c2 => .ok (.group (cs.set i c2))

/-- Modelled from the spec: removal at a path, returning the new tree and
the removed element (spec section 4.5). -/
def removeAt : NTree α → List Nat → Except Err (NTree α × NTree α)
  | _, [] => .error .indexError
  | .leaf _, _ :: _ => .error .typeError
  | .group cs, [i] =>
      match cs[i]? with
      | none => .error .indexError
      | some c => .ok (.group (cs.eraseIdx i), c)
  | .group cs, i :: j :: rest =>
      match cs[i]? with
      | none => .error .indexError
      | some c =>
          match removeAt c (j :: rest) with
          | .error e => .error e
          | .ok r => .ok (.group (cs.set i r.1), r.2)

/-- Modelled from the spec: `insert_at(path, value)` on a
`NestableEventedList`, emitting the path-qualified pre- and post-events
(spec section 4.5). -/
def ninsert (t : NTree α) (p : List Nat) (v : NTree α) :
    Except Err (NTree α × List (NEvent α)) :=
  match insertAt t p v with
  | .error e => .error e
  | .ok t2 => .ok (t2, [.inserting p, .inserted p v])

/-- Modelled from the spec: moving an element from path `src` to path `dst`
(`dst` addressed in the tree after removal), emitting one `moving` and one
`moved` event carrying both paths — not a remove-then-insert pair
(spec section 4.5). -/
def nmove (t : NTree α) (src dst : List Nat) :
    Except Err (NTree α × List (NEvent α)) :=
  match removeAt t src with
  | .error e => .error e
  | .ok r =>
      match insertAt r.1 dst r.2 with
      | .error e => .error e
      | .ok t2 => .ok (t2, [.moving src dst, .moved src dst r.2])

mutual
/-- Size of a nested tree, used for path-aliasing arguments. -/
def NTree.size : NTree α → Nat
  | .leaf _ => 1
  | .group cs => 1 + NTree.sizeList cs
/-- Total size of a list of nested trees. -/
def NTree.sizeList : List (NTree α) → Nat
  | [] => 0
  | c :: rest => NTree.size c + NTree.sizeList rest
end

mutual
/-- Number of occurrences of a subtree value in a nested tree. -/
def NTree.occ [DecidableEq α] (v : NTree α) : NTree α → Nat
  | .leaf w => if NTree.leaf w = v then 1 else 0
  | .group cs => (if NTree.group cs = v then 1 else 0) + NTree.occList v cs
/-- Total occurrence count of a subtree value in a list of nested trees. -/
def NTree.occList [DecidableEq α] (v : NTree α) : List (NTree α) → Nat
  | [] => 0
  | c :: rest => NTree.occ v c + NTree.occList v rest
end

/-- Whether a nestable event is a `moved` event. -/
def NEvent.isMoved : NEvent α → Bool
  | .moved _ _ _ => true
  | _ => false

/-- Whether a nestable event is a `removed` event. -/
def NEvent.isRemoved : NEvent α → Bool
  | .removed _ _ => true
  | _ => false

/-- Whether a nestable event is an `inserted` event. -/
def NEvent.isInserted : NEvent α → Bool
  | .inserted _ _ => true
  | _ => false

/-- Inserting at a path and reading back at the same path yields the
inserted element. -/
theorem getAt_insertAt (v : NTree α) :
    ∀ (p : List Nat) (t t2 : NTree α), insertAt t p v = .ok t2 →
      getAt t2 p = .ok v := by
  intro p
  induction p with
  | nil => intro t t2 h; simp [insertAt] at h
  | cons i ps ih =>
      intro t t2 h
      cases t with
      | leaf w => simp [insertAt] at h
      | group cs =>
          cases ps with
          | nil =>
              by_cases hi : i ≤ cs.length
              · simp only [insertAt, if_pos hi, Except.ok.injEq] at h
                subst h
                have hlen : i < (cs.insertIdx i v).length := by
                  rw [List.length_insertIdx i cs hi]; omega
                have hget : (cs.insertIdx i v)[i]? = some v := by
                  rw [List.getElem?_eq_getElem hlen,
                    List.getElem_insertIdx_self cs v i hi]
                simp [getAt, hget]
              · simp [insertAt, hi] at h
          | cons j rest =>
              cases hc : cs[i]? with
              | none => simp [insertAt, hc] at h
              | some c =>
                  cases hins : insertAt c (j :: rest) v with
                  | error e => simp [insertAt, hc, hins] at h
                  | ok c2 =>
                      simp only [insertAt, hc, hins, Except.ok.injEq] at h
                      subst h
                      obtain ⟨hlt, _⟩ := List.getElem?_eq_some.mp hc
                      have hset : (cs.set i c2)[i]? = some c2 := by
                        rw [List.getElem?_set_self']
                        simp [List.getElem?_eq_getElem hlt]
                      simp only [getAt, hset]
                      exact ih c c2 hins

/-- C6: for every valid path, nested paths of depth at least two included,
reading at path `p` immediately after inserting `v` at path `p` returns
`v`. -/
theorem nestable_insert_get_round_trip (t t2 : NTree α) (p : List Nat)
    (v : NTree α) (evs : List (NEvent α))
    (h : ninsert t p v = .ok (t2, evs)) : getAt t2 p = .ok v := by
  unfold ninsert at h
  cases hins : insertAt t p v with
  | error e => rw [hins] at h; exact Except.noConfusion h
  | ok t3 =>
      rw [hins] at h
      injection h with h1
      rw [show t2 = t3 from (congrArg Prod.fst h1).symm]
      exact getAt_insertAt v p t t3 hins

/-- Witness for C6: a depth-two insertion read back at the same path. -/
theorem nestable_insert_get_round_trip_witness :
    (ninsert (NTree.group [NTree.group [NTree.leaf 0], NTree.leaf 1]) [0, 1]
        (NTree.leaf (9 : Nat)) =
      .ok (NTree.group [NTree.group [NTree.leaf 0, NTree.leaf 9], NTree.leaf 1],
        [NEvent.inserting [0, 1], NEvent.inserted [0, 1] (NTree.leaf 9)])) ∧
    getAt (NTree.group [NTree.group [NTree.leaf 0, NTree.leaf 9], NTree.leaf 1])
        [0, 1] = .ok (NTree.leaf (9 : Nat)) :=
  ⟨rfl, nestable_insert_get_round_trip
    (NTree.group [NTree.group [NTree.leaf 0], NTree.leaf 1])
    (NTree.group [NTree.group [NTree.leaf 0, NTree.leaf 9], NTree.leaf 1])
    [0, 1] (NTree.leaf 9)
    [NEvent.inserting [0, 1], NEvent.inserted [0, 1] (NTree.leaf 9)] rfl⟩

/-- Path lookup composes over path concatenation. -/
theorem getAt_append (u : NTree α) :
    ∀ (p : List Nat) (t : NTree α), getAt t p = .ok u →
      ∀ q, getAt t (p ++ q) = getAt u q := by
  intro p
  induction p with
  | nil =>
      intro t h q
      simp only [getAt, Except.ok.injEq] at h
      rw [h]
      rfl
  | cons i ps ih =>
      intro t h q
      cases t with
      | leaf w => simp [getAt] at h
      | group cs =>
          cases hc : cs[i]? with
          | none => simp [getAt, hc] at h
          | some c =>
              simp only [getAt, hc] at h
              simp only [List.cons_append, getAt, hc]
              exact ih c h q

/-- The size of a member is bounded by the size of the list. -/
theorem size_mem_le (c : NTree α) :
    ∀ cs : List (NTree α), c ∈ cs → NTree.size c ≤ NTree.sizeList cs := by
  intro cs
  induction cs with
  | nil => intro h; exact absurd h (List.not_mem_nil c)
  | cons d rest ih =>
      intro h
      rw [List.mem_cons] at h
      rcases h with h | h
      · rw [h, NTree.sizeList]
        omega
      · have := ih h
        rw [NTree.sizeList]
        omega

/-- Descending along a nonempty path strictly decreases the size. -/
theorem size_getAt_lt :
    ∀ (q : List Nat) (t u : NTree α), getAt t q = .ok u → q ≠ [] →
      NTree.size u < NTree.size t := by
  intro q
  induction q with
  | nil => intro t u _ hne; exact absurd rfl hne
  | cons i rest ih =>
      intro t u h _
      cases t with
      | leaf w => simp [getAt] at h
      | group cs =>
          cases hc : cs[i]? with
          | none => simp [getAt, hc] at h
          | some c =>
              simp only [getAt, hc] at h
              have hmem : c ∈ cs := by
                obtain ⟨hlt, hg⟩ := List.getElem?_eq_some.mp hc
                rw [← hg]
                exact List.getElem_mem hlt
              have hcs : NTree.size c < NTree.size (NTree.group cs) := by
                have := size_mem_le c cs hmem
                rw [NTree.size]
                omega
              cases rest with
              | nil =>
                  simp only [getAt, Except.ok.injEq] at h
                  rw [h] at hcs
                  exact hcs
              | cons j rest2 =>
                  exact lt_trans (ih c u h (by simp)) hcs

/-- A tree occurs at least once in itself. -/
theorem occ_self [DecidableEq α] (t : NTree α) : 1 ≤ NTree.occ t t := by
  cases t with
  | leaf w => simp [NTree.occ]
  | group cs => simp [NTree.occ]

/-- The occurrence count of a member is bounded by that of the list. -/
theorem occ_mem_le [DecidableEq α] (v c : NTree α) :
    ∀ cs : List (NTree α), c ∈ cs → NTree.occ v c ≤ NTree.occList v cs := by
  intro cs
  induction cs with
  | nil => intro h; exact absurd h (List.not_mem_nil c)
  | cons d rest ih =>
      intro h
      rw [List.mem_cons] at h
      rcases h with h | h
      · rw [h, NTree.occList]
        omega
      · have := ih h
        rw [NTree.occList]
        omega

/-- Anything reachable by a path occurs in the tree. -/
theorem occ_getAt [DecidableEq α] (v : NTree α) :
    ∀ (p : List Nat) (t : NTree α), getAt t p = .ok v → 1 ≤ NTree.occ v t := by
  intro p
  induction p with
  | nil =>
      intro t h
      simp only [getAt, Except.ok.injEq] at h
      rw [← h]
      exact occ_self t
  | cons i rest ih =>
      intro t h
      cases t with
      | leaf w => simp [getAt] at h
      | group cs =>
          cases hc : cs[i]? with
          | none => simp [getAt, hc] at h
          | some c =>
              simp only [getAt, hc] at h
              have hmem : c ∈ cs := by
                obtain ⟨hlt, hg⟩ := List.getElem?_eq_some.mp hc
                rw [← hg]
                exact List.getElem_mem hlt
              have h1 := ih c h
              have h2 := occ_mem_le v c cs hmem
              rw [NTree.occ]
              omega

/-- Two entries of a list at distinct indices contribute separately to the
occurrence count of the list. -/
theorem occList_two_le [DecidableEq α] (v : NTree α) :
    ∀ (cs : List (NTree α)) (i j : Nat) (ci cj : NTree α), i < j →
      cs[i]? = some ci → cs[j]? = some cj →
      NTree.occ v ci + NTree.occ v cj ≤ NTree.occList v cs := by
  intro cs
  induction cs with
  | nil => intro i j ci cj _ hi _; simp at hi
  | cons d rest ih =>
      intro i j ci cj hij hi hj
      cases j with
      | zero => omega
      | succ j2 =>
          simp only [List.getElem?_cons_succ] at hj
          cases i with
          | zero =>
              simp only [List.getElem?_cons_zero, Option.some.injEq] at hi
              have hmem : cj ∈ rest := by
                obtain ⟨hlt, hg⟩ := List.getElem?_eq_some.mp hj
                rw [← hg]
                exact List.getElem_mem hlt
              have := occ_mem_le v cj rest hmem
              rw [NTree.occList, hi]
              omega
          | succ i2 =>
              simp only [List.getElem?_cons_succ] at hi
              have := ih i2 j2 ci cj (by omega) hi hj
              rw [NTree.occList]
              omega

/-- Two distinct paths, neither a prefix of the other, that both reach the
same value force at least two occurrences of that value. -/
theorem occ_two_paths [DecidableEq α] (v : NTree α) :
    ∀ (p q : List Nat) (t : NTree α), getAt t p = .ok v → getAt t q = .ok v →
      ¬ p <+: q → ¬ q <+: p → 2 ≤ NTree.occ v t := by
  intro p
  induction p with
  | nil => intro q t _ _ hpq _; exact absurd List.nil_prefix hpq
  | cons i p2 ih =>
      intro q t hp hq hpq hqp
      cases q with
      | nil => exact absurd List.nil_prefix hqp
      | cons j q2 =>
          cases t with
          | leaf w => simp [getAt] at hp
          | group cs =>
              cases hci : cs[i]? with
              | none => simp [getAt, hci] at hp
              | some ci =>
                  cases hcj : cs[j]? with
                  | none => simp [getAt, hcj] at hq
                  | some cj =>
                      simp only [getAt, hci] at hp
                      simp only [getAt, hcj] at hq
                      by_cases hij : i = j
                      · subst hij
                        rw [hci] at hcj
                        injection hcj with hc
                        subst hc
                        have hp2 : ¬ p2 <+: q2 := by
                          intro hpre
                          exact hpq (List.cons_prefix_cons.mpr ⟨rfl, hpre⟩)
                        have hq2 : ¬ q2 <+: p2 := by
                          intro hpre
                          exact hqp (List.cons_prefix_cons.mpr ⟨rfl, hpre⟩)
                        have h2 := ih q2 ci hp hq hp2 hq2
                        have hmem : ci ∈ cs := by
                          obtain ⟨hlt, hg⟩ := List.getElem?_eq_some.mp hci
                          rw [← hg]
                          exact List.getElem_mem hlt
                        have := occ_mem_le v ci cs hmem
                        rw [NTree.occ]
                        omega
                      · have h1 := occ_getAt v p2 ci hp
                        have h2 := occ_getAt v q2 cj hq
                        rcases Nat.lt_or_ge i j with hlt | hge
                        · have := occList_two_le v cs i j ci cj hlt hci hcj
                          rw [NTree.occ]
                          omega
                        · have hjlt : j < i := by omega
                          have := occList_two_le v cs j i cj ci hjlt hcj hci
                          rw [NTree.occ]
                          omega

/-- C7: a successful move from path `src` to a different path `dst`
(including moves across group boundaries) emits exactly one `moved` event
carrying both the source and the destination path — no `removed` or
`inserted` pair — and afterwards reading at `dst` yields the moved element
while path `src` no longer holds it (the moved element, standing for one
object identity, occurring at most once in the resulting tree). -/
theorem nestable_move_atomic [DecidableEq α] (t t1 t2 v : NTree α)
    (src dst : List Nat)
    (hr : removeAt t src = .ok (t1, v))
    (hins : insertAt t1 dst v = .ok t2)
    (hne : src ≠ dst) (huniq : NTree.occ v t2 ≤ 1) :
    nmove t src dst =
      .ok (t2, [NEvent.moving src dst, NEvent.moved src dst v]) ∧
    List.countP NEvent.isMoved [NEvent.moving src dst, NEvent.moved src dst v] = 1 ∧
    List.countP NEvent.isRemoved [NEvent.moving src dst, NEvent.moved src dst v] = 0 ∧
    List.countP NEvent.isInserted [NEvent.moving src dst, NEvent.moved src dst v] = 0 ∧
    getAt t2 dst = .ok v ∧
    getAt t2 src ≠ .ok v := by
  have hdst : getAt t2 dst = .ok v := getAt_insertAt v dst t1 t2 hins
  refine ⟨?_, rfl, rfl, rfl, hdst, ?_⟩
  · unfold nmove
    simp only [hr]
    simp only [hins]
  · intro hsrc
    by_cases hpq : src <+: dst
    · obtain ⟨q, hq⟩ := hpq
      have hqne : q ≠ [] := by
        intro h0
        rw [h0, List.append_nil] at hq
        exact hne hq
      have hvq : getAt v q = .ok v := by
        have hap := getAt_append v src t2 hsrc q
        rw [hq] at hap
        exact hap.symm.trans hdst
      exact absurd (size_getAt_lt q v v hvq hqne) (lt_irrefl _)
    · by_cases hqp : dst <+: src
      · obtain ⟨q, hq⟩ := hqp
        have hqne : q ≠ [] := by
          intro h0
          rw [h0, List.append_nil] at hq
          exact hne hq.symm
        have hvq : getAt v q = .ok v := by
          have hap := getAt_append v dst t2 hdst q
          rw [hq] at hap
          exact hap.symm.trans hsrc
        exact absurd (size_getAt_lt q v v hvq hqne) (lt_irrefl _)
      · have h2 := occ_two_paths v src dst t2 hsrc hdst hpq hqp
        omega

/-- Concrete nested tree for the move witness: two groups side by side. -/
def mvT : NTree Nat := .group [.group [.leaf 0, .leaf 1], .group [.leaf 2]]

/-- The move witness tree after removal of the element at path `[0, 1]`. -/
def mvT1 : NTree Nat := .group [.group [.leaf 0], .group [.leaf 2]]

/-- The move witness tree after reinsertion at path `[1, 0]`. -/
def mvT2 : NTree Nat := .group [.group [.leaf 0], .group [.leaf 1, .leaf 2]]

/-- Witness for C7: a cross-group move of `leaf 1` from path `[0, 1]` to
path `[1, 0]`. -/
theorem nestable_move_atomic_witness :
    (removeAt mvT [0, 1] = .ok (mvT1, NTree.leaf 1)) ∧
    (insertAt mvT1 [1, 0] (NTree.leaf 1) = .ok mvT2) ∧
    (([0, 1] : List Nat) ≠ [1, 0]) ∧
    (NTree.occ (NTree.leaf 1) mvT2 ≤ 1) ∧
    (nmove mvT [0, 1] [1, 0] =
      .ok (mvT2, [NEvent.moving [0, 1] [1, 0],
        NEvent.moved [0, 1] [1, 0] (NTree.leaf 1)])) ∧
    (getAt mvT2 [1, 0] = .ok (NTree.leaf 1)) ∧
    (getAt mvT2 [0, 1] ≠ .ok (NTree.leaf 1)) := by
  have h := nestable_move_atomic mvT mvT1 mvT2 (NTree.leaf 1) [0, 1] [1, 0]
    rfl rfl (by decide) (by decide)
  exact ⟨rfl, rfl, by decide, by decide, h.1, h.2.2.2.2.1, h.2.2.2.2.2⟩

/-- The names bound by the import statements of
`napari/utils/events/__init__.py`, in source order. -/
def events_pkg_imports : List String :=
  ["EmitterGroup", "Event", "EventEmitter", "EventedList",
   "NestableEventedList", "TypedMutableSequence", "dataclass", "SupportsEvents"]

/-- The `__all__` list of `napari/utils/events/__init__.py`, in source
order. -/
def events_pkg_all : List String :=
  ["dataclass", "EmitterGroup", "Event", "EventedList", "EventEmitter",
   "NestableEventedList", "SupportsEvents", "TypedMutableSequence"]

/-- C8: each of the six components of the system overview — `Event`,
`EventEmitter`, `EmitterGroup`, `TypedMutableSequence`, `EventedList`,
`NestableEventedList` — appears in the events package's `__all__` and is
bound by an import in the package's `__init__`. -/
theorem events_package_exports_components :
    ("Event" ∈ events_pkg_all ∧ "Event" ∈ events_pkg_imports) ∧
    ("EventEmitter" ∈ events_pkg_all ∧ "EventEmitter" ∈ events_pkg_imports) ∧
    ("EmitterGroup" ∈ events_pkg_all ∧ "EmitterGroup" ∈ events_pkg_imports) ∧
    ("TypedMutableSequence" ∈ events_pkg_all ∧
      "TypedMutableSequence" ∈ events_pkg_imports) ∧
    ("EventedList" ∈ events_pkg_all ∧ "EventedList" ∈ events_pkg_imports) ∧
    ("NestableEventedList" ∈ events_pkg_all ∧
      "NestableEventedList" ∈ events_pkg_imports) := by
  decide

/-- A labelled spin box (`QtLabeledSpinBox`), reduced to its observable
state: the label text and the current spin value
(`qt_test_image.py`, constructor arguments label and initial value). -/
structure QtLabeledSpinBox where
  label : String
  value : Nat

/-- `IMAGE_SIZE_DEFAULT = (1024, 1024)` in (width, height) order
(`qt_test_image.py` line 18). -/
def IMAGE_SIZE_DEFAULT : Nat × Nat := (1024, 1024)

/-- `TILE_SIZE_DEFAULT = 64` (`qt_test_image.py` line 15). -/
def TILE_SIZE_DEFAULT : Nat := 64

/-- The observable state of a `QtTestImageLayout`: the three spin boxes and
the octree checkbox (`qt_test_image.py`). -/
structure QtTestImageLayout where
  width : QtLabeledSpinBox
  height : QtLabeledSpinBox
  tile_size : QtLabeledSpinBox
  octreeChecked : Bool

/-- `QtTestImageLayout.__init__`: width and height spin boxes start at
`IMAGE_SIZE_DEFAULT`, the tile-size spin box at `TILE_SIZE_DEFAULT`, and the
octree checkbox is set checked (`setChecked(1)`). -/
def QtTestImageLayout.create : QtTestImageLayout :=
  ⟨⟨"Image Width", IMAGE_SIZE_DEFAULT.1⟩,
   ⟨"Image Height", IMAGE_SIZE_DEFAULT.2⟩,
   ⟨"Tile Size", TILE_SIZE_DEFAULT⟩,
   true⟩

/-- `QtTestImageLayout.get_image_size`: the (width, height) pair of the two
spin values. -/
def QtTestImageLayout.get_image_size (l : QtTestImageLayout) : Nat × Nat :=
  (l.width.value, l.height.value)

/-- `QtTestImageLayout.get_tile_size`: the tile-size spin value. -/
def QtTestImageLayout.get_tile_size (l : QtTestImageLayout) : Nat :=
  l.tile_size.value

/-- C10: on a freshly constructed `QtTestImageLayout`, `get_image_size()`
returns `(1024, 1024)` in (width, height) order, `get_tile_size()` returns
`64`, and the octree checkbox is checked — the defaults observable through
the getters equal `IMAGE_SIZE_DEFAULT` and `TILE_SIZE_DEFAULT`. -/
theorem layout_defaults :
    QtTestImageLayout.create.get_image_size = (1024, 1024) ∧
    QtTestImageLayout.create.get_image_size = IMAGE_SIZE_DEFAULT ∧
    QtTestImageLayout.create.get_tile_size = 64 ∧
    QtTestImageLayout.create.get_tile_size = TILE_SIZE_DEFAULT ∧
    QtTestImageLayout.create.octreeChecked = true :=
  ⟨rfl, rfl, rfl, rfl, rfl⟩

/-- Little-endian decimal digits with explicit fuel, so evaluation is
structural; `0` yields no digits. -/
def digitsAux : Nat → Nat → List Nat
  | 0, _ => []
  | fuel + 1, n => if n = 0 then [] else n % 10 :: digitsAux fuel (n / 10)

/-- Little-endian decimal digits of a natural number. -/
def natDigits (n : Nat) : List Nat := digitsAux n n

/-- Value of a little-endian digit list. -/
def digitsVal : List Nat → Nat
  | [] => 0
  | d :: rest => d + 10 * digitsVal rest

/-- The decimal character sequence of a natural number, most significant
digit first; `0` renders as `"0"`. -/
def decimalChars (n : Nat) : List Char :=
  if n = 0 then ['0']
  else (natDigits n).reverse.map (fun d => Char.ofNat (48 + d))

/-- Zero-pad a decimal rendering on the left to width three, as the Python
format specification `003` does. -/
def pad3Chars (n : Nat) : List Char :=
  List.replicate (3 - (decimalChars n).length) '0' ++ decimalChars n

/-- Parse a decimal character sequence back to a number. -/
def parseDec (cs : List Char) : Nat :=
  cs.foldl (fun a c => 10 * a + (c.toNat - 48)) 0

/-- With enough fuel, the digit value round-trips. -/
theorem digitsAux_val : ∀ (fuel n : Nat), n ≤ fuel →
    digitsVal (digitsAux fuel n) = n := by
  intro fuel
  induction fuel with
  | zero => intro n h; interval_cases n; rfl
  | succ f ih =>
      intro n h
      by_cases hn : n = 0
      · simp [digitsAux, hn, digitsVal]
      · have hdiv : n / 10 ≤ f := by
          have : n / 10 < n := Nat.div_lt_self (Nat.pos_of_ne_zero hn) (by omega)
          omega
        simp only [digitsAux, if_neg hn, digitsVal, ih (n / 10) hdiv]
        omega

/-- Every produced digit is below ten. -/
theorem digitsAux_lt10 : ∀ (fuel n d : Nat), d ∈ digitsAux fuel n → d < 10 := by
  intro fuel
  induction fuel with
  | zero => intro n d h; simp [digitsAux] at h
  | succ f ih =>
      intro n d h
      by_cases hn : n = 0
      · simp [digitsAux, hn] at h
      · simp only [digitsAux, if_neg hn, List.mem_cons] at h
        rcases h with h | h
        · rw [h]; exact Nat.mod_lt n (by omega)
        · exact ih (n / 10) d h

/-- Parsing the reversed character rendering of a digit list recovers its
value, for any accumulator. -/
theorem foldl_parse_digits : ∀ (ds : List Nat) (acc : Nat),
    (∀ d ∈ ds, d < 10) →
    List.foldl (fun a c => 10 * a + (c.toNat - 48)) acc
      (ds.reverse.map (fun d => Char.ofNat (48 + d))) =
    acc * 10 ^ ds.length + digitsVal ds := by
  intro ds
  induction ds with
  | nil => intro acc _; simp [digitsVal]
  | cons d rest ih =>
      intro acc hlt
      have hd : d < 10 := hlt d (List.mem_cons_self _ _)
      have hchar : (Char.ofNat (48 + d)).toNat - 48 = d := by
        have hb : ∀ e, e < 10 → (Char.ofNat (48 + e)).toNat - 48 = e := by decide
        exact hb d hd
      simp only [List.reverse_cons, List.map_append, List.map_cons,
        List.map_nil, List.foldl_append, List.foldl_cons, List.foldl_nil]
      rw [ih acc (fun e he => hlt e (List.mem_cons_of_mem _ he)), hchar]
      simp only [digitsVal, List.length_cons]
      ring

/-- Parsing the decimal rendering recovers the number. -/
theorem parse_decimalChars (n : Nat) : parseDec (decimalChars n) = n := by
  by_cases hn : n = 0
  · rw [hn]; rfl
  · unfold decimalChars parseDec
    rw [if_neg hn,
      foldl_parse_digits (natDigits n) 0 (fun d hd => digitsAux_lt10 n n d hd)]
    simp [natDigits, digitsAux_val n n (Nat.le_refl n)]

/-- Leading zero characters do not change the parsed value. -/
theorem parse_replicate_zero : ∀ (k : Nat) (cs : List Char),
    parseDec (List.replicate k '0' ++ cs) = parseDec cs := by
  intro k
  induction k with
  | zero => intro cs; rfl
  | succ j ih =>
      intro cs
      rw [List.replicate_succ, List.cons_append]
      exact ih cs

/-- Parsing the padded rendering still recovers the number. -/
theorem parse_pad3Chars (n : Nat) : parseDec (pad3Chars n) = n := by
  unfold pad3Chars
  rw [parse_replicate_zero, parse_decimalChars]

/-- The padded decimal rendering is injective. -/
theorem pad3Chars_injective : Function.Injective pad3Chars := by
  intro a b h
  have ha := parse_pad3Chars a
  have hb := parse_pad3Chars b
  rw [h] at ha
  rw [hb] at ha
  exact ha.symm

/-- `QtTestImage.image_index`, the class attribute of `qt_test_image.py`:
a single napari-wide counter shared by all instances. -/
structure RenderState where
  image_index : Nat

/-- The naming and counting part of `QtTestImage._create_test_image`
(`qt_test_image.py`): the layer name is the f-string
`test-image-` followed by the counter zero-padded to three digits, and the
class attribute is then incremented by one. -/
def createTestImage (st : RenderState) : String × RenderState :=
  (⟨"test-image-".data ++ pad3Chars st.image_index⟩, ⟨st.image_index + 1⟩)

/-- Replay `n` invocations of `_create_test_image`, collecting the layer
names. -/
def runCreates (st : RenderState) : Nat → List String × RenderState
  | 0 => ([], st)
  | n + 1 =>
      let r := createTestImage st
      let rest := runCreates r.2 n
      (r.1 :: rest.1, rest.2)

/-- The generated layer name, as a function of the counter value. -/
def testImageName (n : Nat) : String :=
  ⟨"test-image-".data ++ pad3Chars n⟩

/-- Layer names are injective in the counter value. -/
theorem testImageName_injective : Function.Injective testImageName := by
  intro a b h
  unfold testImageName at h
  have hdata : "test-image-".data ++ pad3Chars a =
      "test-image-".data ++ pad3Chars b := congrArg String.data h
  exact pad3Chars_injective (List.append_cancel_left hdata)

/-- The names of `n` successive invocations are the names of the `n`
successive counter values. -/
theorem runCreates_names (n : Nat) : ∀ st : RenderState,
    (runCreates st n).1 =
      (List.range n).map (fun k => testImageName (st.image_index + k)) ∧
    (runCreates st n).2.image_index = st.image_index + n := by
  induction n with
  | zero => intro st; exact ⟨rfl, rfl⟩
  | succ m ih =>
      intro st
      obtain ⟨hnames, hidx⟩ := ih ⟨st.image_index + 1⟩
      constructor
      · show testImageName st.image_index :: (runCreates ⟨st.image_index + 1⟩ m).1 = _
        rw [hnames, List.range_succ_eq_map, List.map_cons, List.map_map]
        simp only [Nat.add_zero, Function.comp]
        congr 1
        apply List.map_congr_left
        intro k _
        congr 1
        omega
      · show (runCreates ⟨st.image_index + 1⟩ m).2.image_index = _
        rw [hidx]
        show st.image_index + 1 + m = st.image_index + (m + 1)
        omega

/-- C9: layer names come from one process-wide counter: each invocation
names its layer from the current counter value, zero-padded to three
digits, then increments the counter by exactly one; after `n` invocations
the counter equals its initial value plus `n` and the `n` generated names
are pairwise distinct. -/
theorem test_image_counter_names (st : RenderState) (n : Nat) :
    (createTestImage st).1 = testImageName st.image_index ∧
    (createTestImage st).2.image_index = st.image_index + 1 ∧
    (runCreates st n).2.image_index = st.image_index + n ∧
    (runCreates st n).1.Nodup := by
  obtain ⟨hnames, hidx⟩ := runCreates_names n st
  refine ⟨rfl, rfl, hidx, ?_⟩
  rw [hnames]
  exact (List.nodup_range n).map
    (fun a b hab => by
      have := testImageName_injective hab
      omega)

end Napari
